import Mathlib

/-!
Verification of the godo task manager's synchronization and tree-reconstruction
engine against its specification.  The Go sources are shallowly embedded:

* `Task` models the `internal.Task` struct (`internal/tasks_ui.go`); the fields
  not used by any verified operation (`Description`, `CreatedAt`, `Kind`,
  `SelfLink`, `Etag`, `Created`, `Deleted`, `Links`) are omitted.
* `GTask` models the wire task `tasks/v1.Task` as consumed by
  `fetchGoogleTasks` (`cmd/godo/main.go`).
* Go `time.Time` is modelled by `GoTime` (nanoseconds since the zero time;
  `0` is the zero value, so `IsZero` is `· = 0`).  The library functions
  `Format(time.RFC3339)` / `time.Parse(time.RFC3339, ·)` are modelled by an
  injective formatter and its partial inverse; the only properties the
  development relies on are that the zero time formats to the literal string
  Go produces, that no time formats to the empty string, and that parsing the
  zero-time literal yields the zero value.
* Go string comparison `<` is byte-wise lexicographic; on valid UTF-8 this
  agrees with code-point lexicographic order, modelled here by `strLtB` on
  `String.data`.
-/

namespace Godo

open List

/-- Model of Go `time.Time`: nanoseconds since the zero time; `0` is the zero
value (`IsZero`). -/
abbrev GoTime := Nat

/-- Model of `t.Format(time.RFC3339)`.  The zero time formats to the literal
string Go produces; other times format to a nonempty digit string.  The
formatter is injective and never returns `""`. -/
def formatRFC3339 (t : GoTime) : String :=
  if t = 0 then "0001-01-01T00:00:00Z" else "time+" ++ toString t

/-- Decimal digit-string reader used by `parseRFC3339`. -/
def digitsToNat (acc : Nat) : List Char → Option Nat
  | [] => some acc
  | c :: cs =>
    if 48 ≤ c.toNat && c.toNat ≤ 57 then digitsToNat (acc * 10 + (c.toNat - 48)) cs
    else none

/-- Model of `time.Parse(time.RFC3339, s)`: partial inverse of
`formatRFC3339`; any string not produced by the formatter fails to parse. -/
def parseRFC3339 (s : String) : Option GoTime :=
  if s = "0001-01-01T00:00:00Z" then some 0
  else
    match s.data with
    | 't' :: 'i' :: 'm' :: 'e' :: '+' :: c :: cs => digitsToNat 0 (c :: cs)
    | _ => none

/-- Byte-wise (here: code-point-wise) `<` on one character, as used by Go's
string comparison. -/
def charLtB (a b : Char) : Bool := decide (a.toNat < b.toNat)

/-- Go's lexicographic string `<`, on the underlying character lists. -/
def strLtB : List Char → List Char → Bool
  | [], [] => false
  | [], _ :: _ => true
  | _ :: _, [] => false
  | a :: as, b :: bs =>
    if charLtB a b then true else if charLtB b a then false else strLtB as bs

/-- Go `s < t` for strings. -/
def posLtB (a b : String) : Bool := strLtB a.data b.data

/-- `internal.Task` (tasks_ui.go).  `tasks` is the owned list of children, so
the type is a nested inductive; accessors are defined below. -/
inductive Task where
  | mk (id title notes status : String) (completed : Bool)
       (dueDate completedDate updated : GoTime)
       (parent position : String) (tasks : List Task)

def Task.id : Task → String
  | .mk i _ _ _ _ _ _ _ _ _ _ => i

def Task.title : Task → String
  | .mk _ t _ _ _ _ _ _ _ _ _ => t

def Task.notes : Task → String
  | .mk _ _ n _ _ _ _ _ _ _ _ => n

def Task.status : Task → String
  | .mk _ _ _ s _ _ _ _ _ _ _ => s

def Task.completed : Task → Bool
  | .mk _ _ _ _ c _ _ _ _ _ _ => c

def Task.dueDate : Task → GoTime
  | .mk _ _ _ _ _ d _ _ _ _ _ => d

def Task.completedDate : Task → GoTime
  | .mk _ _ _ _ _ _ cd _ _ _ _ => cd

def Task.updated : Task → GoTime
  | .mk _ _ _ _ _ _ _ u _ _ _ => u

def Task.parent : Task → String
  | .mk _ _ _ _ _ _ _ _ p _ _ => p

def Task.position : Task → String
  | .mk _ _ _ _ _ _ _ _ _ po _ => po

def Task.tasks : Task → List Task
  | .mk _ _ _ _ _ _ _ _ _ _ ts => ts

/-- `task.Tasks = ts` (overwriting the children list, as `buildTaskHierarchy`
and `findChildren` do through the `taskMap` pointers). -/
def Task.withTasks : Task → List Task → Task
  | .mk i t n s c d cd u p po _, ts => .mk i t n s c d cd u p po ts

/-- The wire task `tasks/v1.Task`, restricted to the fields read by
`fetchGoogleTasks` and the tree builder.  A `Due`/`Updated` of `""` and a
`Completed` of `none` are the Go zero values (field absent on the wire). -/
structure GTask where
  id : String
  title : String
  notes : String
  status : String
  due : String
  completed : Option String
  updated : String
  parent : String
  position : String
deriving DecidableEq, Repr

/-- The first pass of `fetchGoogleTasks` (main.go): convert one wire task to
an `internal.Task`.  `Completed` starts as `Status == "completed"` and is
forced to `true` when a parseable completed date is present; an unparseable
or absent `Due`/`Completed`/`Updated` leaves the corresponding time at its
zero value. -/
def toTask (g : GTask) : Task :=
  .mk g.id g.title g.notes g.status
    (g.status == "completed" || (g.completed.bind parseRFC3339).isSome)
    (if g.due == "" then 0 else (parseRFC3339 g.due).getD 0)
    ((g.completed.bind parseRFC3339).getD 0)
    (if g.updated == "" then 0 else (parseRFC3339 g.updated).getD 0)
    g.parent g.position []

/-- The comparison `tasks[i].Position < tasks[j].Position` used by the
`sort.Slice` calls, as a non-strict relation (the sorted output is
non-decreasing under it).  Go's `sort.Slice` is an unstable sort; it is
modelled by `List.insertionSort`, a sorted permutation. -/
def posLe (a b : GTask) : Prop := posLtB b.position a.position = false

instance : DecidableRel posLe := fun _ _ => inferInstanceAs (Decidable (_ = false))

/-- The same ordering on converted tasks, used by the child sort in
`findChildren`. -/
def posLeT (a b : Task) : Prop := posLtB b.position a.position = false

instance : DecidableRel posLeT := fun _ _ => inferInstanceAs (Decidable (_ = false))

/-- `findChildren(parentID, allTasks, taskMap)` (main.go): collect the direct
children of `parentID`, recursively attach their own children, and sort the
group by `Position`.  The Go recursion has no explicit bound; termination is
by the `fuel` parameter, which the caller sets to the task count (enough for
any acyclic input).  `taskMap` maps each wire task's id to the `Task` built
from that same wire task, so the lookup is modelled by `toTask`. -/
def findChildren : Nat → String → List GTask → List Task
  | 0, _, _ => []
  | fuel + 1, parentID, allTasks =>
    let children := allTasks.filterMap fun g =>
      if g.parent = parentID then
        some ((toTask g).withTasks (findChildren fuel g.id allTasks))
      else none
    children.insertionSort posLeT

/-- `buildTaskHierarchy(tasks, taskMap)` (main.go): sort the flat collection
by `Position`, then keep the tasks with empty `Parent` as roots, attaching
each root's recursively collected children. -/
def buildTaskHierarchy (tasks : List GTask) : List Task :=
  let sorted := tasks.insertionSort posLe
  sorted.filterMap fun g =>
    if g.parent = "" then
      some ((toTask g).withTasks (findChildren sorted.length g.id sorted))
    else none

/-! ### Order facts about the string comparison -/

theorem charLtB_asymm {a b : Char} (h : charLtB a b = true) : charLtB b a = false := by
  simp only [charLtB, decide_eq_true_eq, decide_eq_false_iff_not] at *
  omega

theorem charLtB_nat {a b : Char} : charLtB a b = true ↔ a.toNat < b.toNat := by
  simp [charLtB]

theorem strLtB_asymm : ∀ {a b : List Char}, strLtB a b = true → strLtB b a = false
  | [], [], h => by simp [strLtB] at h
  | [], _ :: _, _ => by simp [strLtB]
  | _ :: _, [], h => by simp [strLtB] at h
  | a :: as, b :: bs, h => by
    by_cases hab : charLtB a b = true
    · simp [strLtB, charLtB_asymm hab, hab]
    · by_cases hba : charLtB b a = true
      · simp [strLtB, hab, hba] at h
      · have hr := strLtB_asymm (a := as) (b := bs)
        simp_all [strLtB]

theorem strLtB_resolve :
    ∀ {a c : List Char} (b : List Char), strLtB a c = true →
      strLtB a b = true ∨ strLtB b c = true
  | [], [], _, h => by simp [strLtB] at h
  | _ :: _, [], _, h => by simp [strLtB] at h
  | [], _ :: _, [], _ => Or.inr (by simp [strLtB])
  | [], _ :: _, _ :: _, _ => Or.inl (by simp [strLtB])
  | _ :: _, _ :: _, [], h => Or.inr (by simp [strLtB])
  | a :: as, c :: cs, b :: bs, h => by
    by_cases hab : charLtB a b = true
    · exact Or.inl (by simp [strLtB, hab])
    by_cases hba : charLtB b a = true
    · refine Or.inr ?_
      by_cases hac : charLtB a c = true
      · have hbc : charLtB b c = true := by
          simp only [charLtB, decide_eq_true_eq] at hba hac ⊢
          omega
        simp [strLtB, hbc]
      · by_cases hca : charLtB c a = true
        · simp [strLtB, hac, hca] at h
        · have hbc : charLtB b c = true := by
            simp only [charLtB, decide_eq_true_eq, decide_eq_false_iff_not] at hba hac hca ⊢
            omega
          simp [strLtB, hbc]
    by_cases hac : charLtB a c = true
    · have hbc : charLtB b c = true := by
        simp only [charLtB, decide_eq_true_eq, decide_eq_false_iff_not] at hab hba hac ⊢
        omega
      exact Or.inr (by simp [strLtB, hbc])
    by_cases hca : charLtB c a = true
    · simp [strLtB, hac, hca] at h
    have h' : strLtB as cs = true := by simp_all [strLtB]
    have hbc : charLtB b c = false := by
      simp only [charLtB, decide_eq_true_eq, decide_eq_false_iff_not] at hab hba hac hca ⊢
      omega
    have hcb : charLtB c b = false := by
      simp only [charLtB, decide_eq_true_eq, decide_eq_false_iff_not] at hab hba hac hca ⊢
      omega
    rcases strLtB_resolve bs h' with hl | hr
    · exact Or.inl (by simp [strLtB, hab, hba, hl])
    · exact Or.inr (by simp [strLtB, hbc, hcb, hr])

instance : IsTotal GTask posLe := by
  constructor
  intro a b
  by_cases h : strLtB b.position.data a.position.data = true
  · exact Or.inr (strLtB_asymm h)
  · exact Or.inl (by simpa using h)

instance : IsTrans GTask posLe := by
  constructor
  intro a b c hab hbc
  simp only [posLe, posLtB] at *
  by_cases h : strLtB c.position.data a.position.data = true
  · rcases strLtB_resolve b.position.data h with h' | h' <;> simp_all
  · simpa using h

instance : IsTotal Task posLeT := by
  constructor
  intro a b
  by_cases h : strLtB b.position.data a.position.data = true
  · exact Or.inr (strLtB_asymm h)
  · exact Or.inl (by simpa using h)

instance : IsTrans Task posLeT := by
  constructor
  intro a b c hab hbc
  simp only [posLeT, posLtB] at *
  by_cases h : strLtB c.position.data a.position.data = true
  · rcases strLtB_resolve b.position.data h with h' | h' <;> simp_all
  · simpa using h

/-! ### Flattening the output forest -/

mutual

/-- All nodes of a task tree (the tree itself and, recursively, every
descendant). -/
def Task.nodes : Task → List Task
  | .mk i t n s c d cd u p po ts => .mk i t n s c d cd u p po ts :: nodesList ts

/-- All nodes of a forest. -/
def nodesList : List Task → List Task
  | [] => []
  | t :: ts => Task.nodes t ++ nodesList ts

end

mutual

/-- Flatten one tree of the output forest back into `(id, parent id)` pairs:
the tree's own node is paired with the id `p` of the node it hangs under
(`""` at the root level), and its children recursively with its own id. -/
def Task.pairsUnder : Task → String → List (String × String)
  | .mk i _ _ _ _ _ _ _ _ _ ts, p => (i, p) :: pairsList ts i

/-- Flatten a sibling group hanging under the id `p`. -/
def pairsList : List Task → String → List (String × String)
  | [], _ => []
  | t :: ts, p => t.pairsUnder p ++ pairsList ts p

end

theorem nodesList_eq_flatMap : ∀ ts : List Task, nodesList ts = ts.flatMap Task.nodes
  | [] => rfl
  | t :: ts => by rw [nodesList, List.flatMap_cons, nodesList_eq_flatMap ts]

theorem pairsList_eq_flatMap :
    ∀ (ts : List Task) (p : String), pairsList ts p = ts.flatMap (Task.pairsUnder · p)
  | [], _ => rfl
  | t :: ts, p => by rw [pairsList, List.flatMap_cons, pairsList_eq_flatMap ts]

@[simp]
theorem id_withTasks (t : Task) (ts : List Task) : (t.withTasks ts).id = t.id := by
  cases t
  rfl

@[simp]
theorem parent_withTasks (t : Task) (ts : List Task) : (t.withTasks ts).parent = t.parent := by
  cases t
  rfl

@[simp]
theorem position_withTasks (t : Task) (ts : List Task) : (t.withTasks ts).position = t.position := by
  cases t
  rfl

@[simp]
theorem tasks_withTasks (t : Task) (ts : List Task) : (t.withTasks ts).tasks = ts := by
  cases t
  rfl

@[simp]
theorem id_toTask (g : GTask) : (toTask g).id = g.id := rfl

@[simp]
theorem parent_toTask (g : GTask) : (toTask g).parent = g.parent := rfl

@[simp]
theorem position_toTask (g : GTask) : (toTask g).position = g.position := rfl

theorem nodes_withTasks (t : Task) (ts : List Task) :
    (t.withTasks ts).nodes = t.withTasks ts :: nodesList ts := by
  cases t
  rfl

theorem pairsUnder_withTasks (t : Task) (ts : List Task) (p : String) :
    (t.withTasks ts).pairsUnder p = (t.id, p) :: pairsList ts t.id := by
  cases t
  rfl

/-! ### Structural equality of tasks, modelling `tasksEqual` -/

mutual

/-- Structural equality of two tasks, field by field. -/
def taskBeq : Task → Task → Bool
  | .mk i1 t1 n1 s1 c1 d1 cd1 u1 p1 po1 ts1, .mk i2 t2 n2 s2 c2 d2 cd2 u2 p2 po2 ts2 =>
    i1 == i2 && t1 == t2 && n1 == n2 && s1 == s2 && c1 == c2 && d1 == d2 &&
      cd1 == cd2 && u1 == u2 && p1 == p2 && po1 == po2 && taskListBeq ts1 ts2

/-- Structural equality of two task lists. -/
def taskListBeq : List Task → List Task → Bool
  | [], [] => true
  | t :: ts, u :: us => taskBeq t u && taskListBeq ts us
  | _, _ => false

end

mutual

theorem taskBeq_iff : ∀ t u : Task, taskBeq t u = true ↔ t = u
  | .mk i1 t1 n1 s1 c1 d1 cd1 u1 p1 po1 ts1, .mk i2 t2 n2 s2 c2 d2 cd2 u2 p2 po2 ts2 => by
    rw [taskBeq]
    simp only [Bool.and_eq_true, beq_iff_eq, Task.mk.injEq, taskListBeq_iff ts1 ts2]
    tauto

theorem taskListBeq_iff : ∀ ts us : List Task, taskListBeq ts us = true ↔ ts = us
  | [], [] => by simp [taskListBeq]
  | [], _ :: _ => by simp [taskListBeq]
  | _ :: _, [] => by simp [taskListBeq]
  | t :: ts, u :: us => by
    rw [taskListBeq]
    simp only [Bool.and_eq_true, taskBeq_iff t u, taskListBeq_iff ts us, List.cons.injEq]

end

instance : DecidableEq Task := fun t u => decidable_of_iff _ (taskBeq_iff t u)

/-- `tasksEqual(a, b)` (main.go): compare lengths, then the JSON marshalings
byte for byte.  The `internal.Task` JSON schema has fixed field order and no
`omitempty`, so marshaling is injective and byte equality of the marshalings
is structural equality; it is modelled by `taskListBeq`. -/
def tasksEqual (a b : List Task) : Bool :=
  a.length == b.length && taskListBeq a b

theorem tasksEqual_iff (a b : List Task) : tasksEqual a b = true ↔ a = b := by
  rw [tasksEqual, Bool.and_eq_true, taskListBeq_iff a b]
  constructor
  · exact fun h => h.2
  · rintro rfl
    simp

/-! ### The background reconciliation cycle (`startBackgroundSync`, main.go) -/

/-- `GoogleTasksCache`: the last-known-good snapshot and its fetch time. -/
structure GoogleTasksCache where
  tasks : List Task
  lastSync : GoTime
deriving DecidableEq

/-- The externally observable side effects of one reconciliation cycle:
whether `saveCachedTasks` was invoked, and how many times
`notifyUIOfChanges` was invoked. -/
structure SyncEffects where
  wroteCache : Bool
  notifications : Nat
deriving DecidableEq, Repr

/-- The body of one tick of the `startBackgroundSync` loop (main.go), after a
successful fetch: under the cache lock, if the fetched snapshot differs from
the cached one (`tasksEqual`), replace the whole cached snapshot, set
`LastSync` to the current time, save the cache file and notify the UI;
otherwise do nothing. -/
def syncCycle (cache : GoogleTasksCache) (fetched : List Task) (now : GoTime) :
    GoogleTasksCache × SyncEffects :=
  if tasksEqual cache.tasks fetched then
    (cache, { wroteCache := false, notifications := 0 })
  else
    ({ tasks := fetched, lastSync := now }, { wroteCache := true, notifications := 1 })

/-! ### File system model for the persistence layer

`SaveTasks`/`LoadTasks` (internal/storage.go) and `saveCachedTasks`
(main.go) are modelled by the traces of file-system operations they perform.
File contents are abstract byte lists; `data` stands for the JSON marshaling
of the snapshot being saved.  A crashed run executes a prefix of the trace:
`os.WriteFile` interrupted mid-write leaves a truncated file (any prefix of
the data; the target was truncated on open), while `os.Rename` is atomic. -/

/-- A file system: map from path to contents (`none` = file absent). -/
structure FileSys where
  files : String → Option (List Nat)

/-- One file-system operation performed by a save routine. -/
inductive FsOp where
  | write (path : String) (data : List Nat)
  | rename (src dst : String)

/-- Effect of one completed operation. -/
def applyOp (fs : FileSys) : FsOp → FileSys
  | .write p d => ⟨fun q => if q = p then some d else fs.files q⟩
  | .rename s t => ⟨fun q => if q = t then fs.files s else if q = s then none else fs.files q⟩

/-- Effect of a completed run. -/
def runOps (fs : FileSys) : List FsOp → FileSys
  | [] => fs
  | op :: rest => runOps (applyOp fs op) rest

/-- `Crashed fs ops fs'`: a run of `ops` from `fs` was interrupted before
completing, leaving `fs'`.  The crash happens before an operation, in the
middle of a write (leaving a truncated `d.take k` at the target), or later in
the trace; a rename is atomic, so it either happened completely or not at
all.  At least one operation is left unexecuted. -/
inductive Crashed : FileSys → List FsOp → FileSys → Prop
  | before (fs : FileSys) (op : FsOp) (rest : List FsOp) : Crashed fs (op :: rest) fs
  | torn (fs : FileSys) (p : String) (d : List Nat) (k : Nat) (rest : List FsOp) :
      Crashed fs (.write p d :: rest) (applyOp fs (.write p (d.take k)))
  | step (fs : FileSys) (op : FsOp) (rest : List FsOp) (fs' : FileSys) :
      Crashed (applyOp fs op) rest fs' → Crashed fs (op :: rest) fs'

/-- Cache file path used by `saveCachedTasks`/`loadCachedTasks` (main.go),
relative to the home directory. -/
def cacheFilePath : String := ".local/share/godo/google_tasks_cache.json"

/-- The temporary file `cacheFile + ".tmp"` used by `saveCachedTasks`. -/
def tempCacheFilePath : String := cacheFilePath ++ ".tmp"

/-- The trace of `saveCachedTasks` (main.go): write the marshaled snapshot to
the temporary file, then rename it over the cache file. -/
def saveCachedTasksOps (data : List Nat) : List FsOp :=
  [.write tempCacheFilePath data, .rename tempCacheFilePath cacheFilePath]

/-- `storagePath + "/tasks.json"`, the canonical file of
`SaveTasks`/`LoadTasks` (internal/storage.go). -/
def tasksFilePath (storagePath : String) : String := storagePath ++ "/tasks.json"

/-- The trace of `SaveTasks` (internal/storage.go): a single direct
`os.WriteFile` of the marshaled snapshot to the canonical file — no
temporary file and no rename. -/
def saveTasksOps (storagePath : String) (data : List Nat) : List FsOp :=
  [.write (tasksFilePath storagePath) data]

/-- `LoadTasks` (internal/storage.go): a missing canonical file yields the
empty snapshot and no error; otherwise the contents are unmarshaled
(`decode` models `json.Unmarshal`, whose internals are outside this
repository). -/
def LoadTasks (decode : List Nat → Option (List Task)) (file : Option (List Nat)) :
    Except String (List Task) :=
  match file with
  | none => .ok []
  | some data =>
    match decode data with
    | some tasks => .ok tasks
    | none => .error "failed to unmarshal tasks"

/-- `ImportFromLocal` (main.go): same contract as `LoadTasks` — a missing
tasks file yields the empty snapshot and no error. -/
def ImportFromLocal (decode : List Nat → Option (List Task)) (file : Option (List Nat)) :
    Except String (List Task) :=
  match file with
  | none => .ok []
  | some data =>
    match decode data with
    | some tasks => .ok tasks
    | none => .error "failed to parse tasks file"

/-! ### The Remote Client's wire mappings (`CreateTask`, `UpdateTask`) -/

/-- The fields of a `tasks/v1.Task` as filled in by `CreateTask` and
`UpdateTask` before the API call.  `due = ""` is the Go zero value: the field
is absent from the wire request (`omitempty`). -/
structure WireTask where
  id : String
  title : String
  notes : String
  status : String
  due : String
  parent : String
  position : String
deriving DecidableEq, Repr

/-- The wire task built by `CreateTask` (main.go): `Due` is set only when the
task's `DueDate` is not the zero time. -/
def createTaskWire (task : Task) : WireTask :=
  { id := ""
    title := task.title
    notes := task.notes
    status := task.status
    due := if task.dueDate ≠ 0 then formatRFC3339 task.dueDate else ""
    parent := task.parent
    position := task.position }

/-- The wire task built by `UpdateTask` (main.go): `Due` is always set to
`task.DueDate.Format(time.RFC3339)`, with no zero check. -/
def updateTaskWire (task : Task) : WireTask :=
  { id := task.id
    title := task.title
    notes := task.notes
    status := task.status
    due := formatRFC3339 task.dueDate
    parent := task.parent
    position := task.position }

/-! ### Foreground mutations on a single task (`Update`, internal/tasks_ui.go) -/

/-- The `" "` (space) handler marking a task completed:
`task.Completed = true; task.Status = "completed"`. -/
def markCompleted : Task → Task
  | .mk i t n _ _ d cd u p po ts => .mk i t n "completed" true d cd u p po ts

/-- The `" "` handler moving a completed task back to active:
`task.Completed = false; task.Status = "needsAction"`. -/
def markNeedsAction : Task → Task
  | .mk i t n _ _ d cd u p po ts => .mk i t n "needsAction" false d cd u p po ts

/-- The `"rename"` handler on a task of the active list: set the title and
`Updated`, defaulting an empty `Status` to `"needsAction"`. -/
def renameActive (v : String) (now : GoTime) : Task → Task
  | .mk i _ n s c d cd _ p po ts =>
    .mk i v n (if s = "" then "needsAction" else s) c d cd now p po ts

/-- The `"rename"` handler on a task of the completed list: set the title and
`Updated`, defaulting an empty `Status` to `"completed"`. -/
def renameCompleted (v : String) (now : GoTime) : Task → Task
  | .mk i _ n s c d cd _ p po ts =>
    .mk i v n (if s = "" then "completed" else s) c d cd now p po ts

/-- The invariant claimed by the spec: the derived `Completed` boolean agrees
with `Status == "completed"`. -/
def completedStatusInv (t : Task) : Prop := t.completed = true ↔ t.status = "completed"

instance (t : Task) : Decidable (completedStatusInv t) :=
  inferInstanceAs (Decidable (_ ↔ _))

/-- `removeTask(tasks, task)` (internal/tasks_ui.go): drop the first element
whose `Id` equals `task.Id`; if none matches, return the list unchanged. -/
def removeTask : List Task → Task → List Task
  | [], _ => []
  | t :: ts, task => if t.id == task.id then ts else t :: removeTask ts task

/-- `splitTasks(tasks)` (internal/tasks_ui.go). -/
def splitTasks (tasks : List Task) : List Task × List Task :=
  (tasks.filter (fun t => !t.completed), tasks.filter (fun t => t.completed))

/-! ### Round-trip development for the tree builder -/

/-- The ids of a flat wire collection. -/
def gids (l : List GTask) : List String := l.map GTask.id

/-- The id-to-parent pair carried by one wire task. -/
def pairOf (g : GTask) : String × String := (g.id, g.parent)

/-- Reference enumeration of the strict descendants of the id `p` within
`l`, up to `fuel` levels deep: the direct children of `p`, followed by the
descendants of each child. -/
def descList (l : List GTask) : Nat → String → List GTask
  | 0, _ => []
  | fuel + 1, p =>
    let cs := l.filter fun g => decide (g.parent = p)
    cs ++ cs.flatMap fun c => descList l fuel c.id

/-- The roots of a flat wire collection: the tasks with empty parent. -/
def rootsOf (l : List GTask) : List GTask := l.filter fun g => decide (g.parent = "")

/-- `Reaches l p j g`: within `l`, the task `g` lies `j ≥ 1` parent steps
below the id `p`. -/
inductive Reaches (l : List GTask) : String → Nat → GTask → Prop
  | base (p : String) (g : GTask) : g ∈ l → g.parent = p → Reaches l p 1 g
  | step (p : String) (c g : GTask) (j : Nat) :
      c ∈ l → c.parent = p → Reaches l c.id j g → Reaches l p (j + 1) g

theorem Reaches.mem {l : List GTask} {p : String} {j : Nat} {g : GTask}
    (h : Reaches l p j g) : g ∈ l := by
  induction h with
  | base _ _ hg _ => exact hg
  | step _ _ _ _ _ _ _ ih => exact ih

theorem Reaches.pos {l : List GTask} {p : String} {j : Nat} {g : GTask}
    (h : Reaches l p j g) : 1 ≤ j := by
  induction h with
  | base => exact le_refl 1
  | step _ _ _ j => exact Nat.le_add_left 1 j

theorem filterMap_guard {α β : Type} (P : α → Prop) [DecidablePred P] (f : α → β) :
    ∀ l : List α,
      l.filterMap (fun a => if P a then some (f a) else none)
        = (l.filter fun a => decide (P a)).map f
  | [] => rfl
  | a :: l => by
    by_cases h : P a <;>
      simp [List.filterMap_cons, List.filter_cons, h, filterMap_guard P f l]

theorem mem_descList {l : List GTask} {g : GTask} :
    ∀ {fuel : Nat} {p : String},
      g ∈ descList l fuel p ↔ ∃ j, 1 ≤ j ∧ j ≤ fuel ∧ Reaches l p j g
  | 0, p => by
    rw [descList]
    simp only [List.not_mem_nil, false_iff, not_exists]
    rintro j ⟨h1, h2, _⟩
    omega
  | fuel + 1, p => by
    rw [descList]
    simp only [List.mem_append, List.mem_flatMap, List.mem_filter, decide_eq_true_eq]
    constructor
    · rintro (⟨hg, hp⟩ | ⟨c, ⟨hc, hcp⟩, hgc⟩)
      · exact ⟨1, le_refl 1, by omega, Reaches.base p g hg hp⟩
      · obtain ⟨j, h1, h2, hr⟩ := mem_descList.mp hgc
        exact ⟨j + 1, by omega, by omega, Reaches.step p c g j hc hcp hr⟩
    · rintro ⟨j, h1, h2, hr⟩
      cases hr with
      | base _ _ hg hp => exact Or.inl ⟨hg, hp⟩
      | step _ c _ j hc hcp hr =>
        refine Or.inr ⟨c, ⟨hc, hcp⟩, mem_descList.mpr ⟨j, hr.pos, by omega, hr⟩⟩

theorem Reaches.snoc {l : List GTask} {g : GTask} (hg : g ∈ l) :
    ∀ (p : String) (j : Nat) (u : GTask), Reaches l p j u → g.parent = u.id →
      Reaches l p (j + 1) g
  | _, _, _, .base q v hv hvq, hp => .step q v g 1 hv hvq (.base v.id g hg hp)
  | _, _, _, .step q c v k hc hcq hr, hp =>
    .step q c g (k + 1) hc hcq (Reaches.snoc hg c.id k v hr hp)

theorem Reaches.bottom {l : List GTask} {p : String} {j : Nat} {g : GTask}
    (h : Reaches l p j g) :
    (j = 1 ∧ g ∈ l ∧ g.parent = p) ∨
      ∃ u j', u ∈ l ∧ u.id = g.parent ∧ j = j' + 1 ∧ Reaches l p j' u := by
  induction h with
  | base q v hv hvq => exact Or.inl ⟨rfl, hv, hvq⟩
  | step q c v k hc hcq hr ih =>
    rcases ih with ⟨rfl, hv, hvc⟩ | ⟨u, j', hu, hup, rfl, hru⟩
    · exact Or.inr ⟨c, 1, hc, hvc.symm, rfl, Reaches.base q c hc hcq⟩
    · exact Or.inr ⟨u, j' + 1, hu, hup, rfl, Reaches.step q c u j' hc hcq hru⟩

/-- FC: flattening what `findChildren` builds below `p` yields exactly the
id-to-parent pairs of the descendants of `p`, as a permutation. -/
theorem pairs_findChildren (l : List GTask) :
    ∀ (fuel : Nat) (p : String),
      pairsList (findChildren fuel p l) p ~ (descList l fuel p).map pairOf
  | 0, p => by
    rw [findChildren, descList]
    exact List.Perm.refl _
  | fuel + 1, p => by
    have hsort : findChildren (fuel + 1) p l
        = ((l.filter fun g => decide (g.parent = p)).map
            (fun g => (toTask g).withTasks (findChildren fuel g.id l))).insertionSort posLeT := by
      rw [findChildren, filterMap_guard]
    calc pairsList (findChildren (fuel + 1) p l) p
        ~ pairsList ((l.filter fun g => decide (g.parent = p)).map
            (fun g => (toTask g).withTasks (findChildren fuel g.id l))) p := by
          rw [pairsList_eq_flatMap, pairsList_eq_flatMap, hsort]
          exact (List.perm_insertionSort _ _).flatMap_right _
      _ = (l.filter fun g => decide (g.parent = p)).flatMap
            (fun c => (c.id, p) :: pairsList (findChildren fuel c.id l) c.id) := by
          rw [pairsList_eq_flatMap, List.flatMap_map]
          refine List.flatMap_congr fun c _ => ?_
          rw [pairsUnder_withTasks, id_toTask]
      _ ~ (l.filter fun g => decide (g.parent = p)).map (fun c => (c.id, p))
            ++ (l.filter fun g => decide (g.parent = p)).flatMap
                 (fun c => pairsList (findChildren fuel c.id l) c.id) :=
          (List.map_append_flatMap_perm _ _ _).symm
      _ ~ (l.filter fun g => decide (g.parent = p)).map pairOf
            ++ (l.filter fun g => decide (g.parent = p)).flatMap
                 (fun c => (descList l fuel c.id).map pairOf) := by
          refine List.Perm.append ?_ (List.Perm.flatMap_left _ fun c _ => ?_)
          · refine List.Perm.of_eq (List.map_congr_left fun c hc => ?_)
            have := (List.mem_filter.mp hc).2
            rw [pairOf, of_decide_eq_true this]
          · exact pairs_findChildren l fuel c.id
      _ = (descList l (fuel + 1) p).map pairOf := by
          rw [descList]
          simp only [List.map_append, List.map_flatMap]

/-- Well-formedness of a flat wire collection, as assumed by claim C5:
ids are assigned (non-empty) and pairwise distinct, every non-empty parent
reference resolves to an id of the collection, and the parent graph is
acyclic — witnessed by a depth function `d` that is `0` on roots and
increases by one along each parent edge. -/
structure WellFormed (l : List GTask) (d : String → Nat) : Prop where
  nodupIds : (gids l).Nodup
  idsNonempty : ∀ g ∈ l, g.id ≠ ""
  rootDepth : ∀ g ∈ l, g.parent = "" → d g.id = 0
  parentMem : ∀ g ∈ l, g.parent ≠ "" → g.parent ∈ gids l
  parentDepth : ∀ g ∈ l, g.parent ≠ "" → d g.id = d g.parent + 1

namespace WellFormed

variable {l : List GTask} {d : String → Nat}

theorem nodup (hw : WellFormed l d) : l.Nodup := hw.nodupIds.of_map _

theorem idInj (hw : WellFormed l d) {u v : GTask} (hu : u ∈ l) (hv : v ∈ l)
    (h : u.id = v.id) : u = v :=
  List.inj_on_of_nodup_map hw.nodupIds hu hv h

theorem gid_ne (hw : WellFormed l d) {p : String} (hp : p ∈ gids l) : p ≠ "" := by
  obtain ⟨u, hu, rfl⟩ := List.mem_map.mp hp
  exact hw.idsNonempty u hu

theorem depth_of_reaches (hw : WellFormed l d) {p : String} {j : Nat} {g : GTask}
    (hr : Reaches l p j g) : p ≠ "" → d g.id = d p + j := by
  induction hr with
  | base q v hv hvq =>
    intro hp
    have h1 := hw.parentDepth v hv (by rw [hvq]; exact hp)
    rw [hvq] at h1
    omega
  | step q c v k hc hcq hr ih =>
    intro hp
    have hcid : c.id ≠ "" := hw.idsNonempty c hc
    have h2 := hw.parentDepth c hc (by rw [hcq]; exact hp)
    rw [hcq] at h2
    have := ih hcid
    omega

end WellFormed

/-- The id of the ancestor `j` parent steps above `g` within `l` (following
the unique resolution of parent references when ids are distinct). -/
def ancId (l : List GTask) : Nat → GTask → Option String
  | 0, g => some g.id
  | j + 1, g => (l.find? fun u => u.id == g.parent).bind fun u => ancId l j u

namespace WellFormed

variable {l : List GTask} {d : String → Nat}

theorem anc_of_reaches (hw : WellFormed l d) (j : Nat) :
    ∀ (p : String) (g : GTask), p ∈ gids l → Reaches l p j g → ancId l j g = some p := by
  induction j with
  | zero => exact fun p g _ hr => absurd hr.pos (by omega)
  | succ j ih =>
    intro p g hp hr
    have hfind : ∀ (q : GTask), q ∈ l → q.id = g.parent →
        ∃ u₀, l.find? (fun u => u.id == g.parent) = some u₀ ∧ u₀.id = g.parent ∧ u₀ ∈ l := by
      intro q hq hqid
      have hs : (l.find? (fun u => u.id == g.parent)).isSome := by
        rw [List.find?_isSome]
        exact ⟨q, hq, by simp [hqid]⟩
      obtain ⟨u₀, hu₀⟩ := Option.isSome_iff_exists.mp hs
      refine ⟨u₀, hu₀, by simpa using List.find?_some hu₀, List.mem_of_find?_eq_some hu₀⟩
    rcases hr.bottom with ⟨hj1, hg, hgp⟩ | ⟨u, j', hu, hup, hj, hru⟩
    · have hj0 : j = 0 := by omega
      subst hj0
      obtain ⟨q, hq, hqid⟩ := List.mem_map.mp (hgp ▸ hp)
      obtain ⟨u₀, hfe, hid, _⟩ := hfind q hq hqid
      simp only [ancId]
      rw [hfe]
      show some u₀.id = some p
      rw [hid, hgp]
    · have hj' : j' = j := by omega
      subst hj'
      obtain ⟨u₀, hfe, hid, hu₀⟩ := hfind u hu hup
      have heq : u₀ = u := hw.idInj hu₀ hu (by rw [hid, hup])
      subst heq
      simp only [ancId]
      rw [hfe]
      exact ih p u₀ hp hru

theorem descList_nodup (hw : WellFormed l d) :
    ∀ (fuel : Nat) (p : String), p ∈ gids l → (descList l fuel p).Nodup := by
  intro fuel
  induction fuel with
  | zero => intro p _; rw [descList]; exact List.nodup_nil
  | succ fuel ih =>
    intro p hp
    have hpne : p ≠ "" := hw.gid_ne hp
    have hcs : (l.filter fun g => decide (g.parent = p)).Nodup := hw.nodup.filter _
    have hmemcs : ∀ c ∈ l.filter fun g => decide (g.parent = p), c ∈ l ∧ c.parent = p := by
      intro c hc
      have := List.mem_filter.mp hc
      exact ⟨this.1, of_decide_eq_true this.2⟩
    have hdepth : ∀ c ∈ l.filter fun g => decide (g.parent = p), d c.id = d p + 1 := by
      intro c hc
      obtain ⟨hcl, hcp⟩ := hmemcs c hc
      have := hw.parentDepth c hcl (by rw [hcp]; exact hpne)
      rw [hcp] at this
      exact this
    rw [descList]
    rw [List.nodup_append]
    refine ⟨hcs, ?_, ?_⟩
    · rw [List.nodup_flatMap]
      constructor
      · intro c hc
        exact ih c.id (List.mem_map.mpr ⟨c, (hmemcs c hc).1, rfl⟩)
      · refine List.Pairwise.imp_of_mem ?_ hcs
        intro c₁ c₂ hc₁ hc₂ hne g hg₁ hg₂
        obtain ⟨j₁, hj₁, hj₁f, hr₁⟩ := mem_descList.mp hg₁
        obtain ⟨j₂, hj₂, hj₂f, hr₂⟩ := mem_descList.mp hg₂
        have hc₁l := (hmemcs c₁ hc₁).1
        have hc₂l := (hmemcs c₂ hc₂).1
        have hc₁ne : c₁.id ≠ "" := hw.idsNonempty c₁ hc₁l
        have hc₂ne : c₂.id ≠ "" := hw.idsNonempty c₂ hc₂l
        have hd₁ := hw.depth_of_reaches hr₁ hc₁ne
        have hd₂ := hw.depth_of_reaches hr₂ hc₂ne
        have he₁ := hdepth c₁ hc₁
        have he₂ := hdepth c₂ hc₂
        have hjj : j₁ = j₂ := by omega
        subst hjj
        have ha₁ := hw.anc_of_reaches j₁ c₁.id g (List.mem_map.mpr ⟨c₁, hc₁l, rfl⟩) hr₁
        have ha₂ := hw.anc_of_reaches j₁ c₂.id g (List.mem_map.mpr ⟨c₂, hc₂l, rfl⟩) hr₂
        have : c₁.id = c₂.id := by
          have := ha₁.symm.trans ha₂
          exact Option.some.inj this
        exact hne (hw.idInj hc₁l hc₂l this)
    · intro g hgcs hgflat
      obtain ⟨c, hc, hgc⟩ := List.mem_flatMap.mp hgflat
      obtain ⟨j, hj1, hjf, hr⟩ := mem_descList.mp hgc
      have hgd := hdepth g hgcs
      have hcd := hdepth c hc
      have hcne : c.id ≠ "" := hw.idsNonempty c (hmemcs c hc).1
      have := hw.depth_of_reaches hr hcne
      omega

theorem full_nodup (hw : WellFormed l d) :
    (rootsOf l ++ (rootsOf l).flatMap fun r => descList l l.length r.id).Nodup := by
  have hroots : (rootsOf l).Nodup := hw.nodup.filter _
  have hmemroots : ∀ r ∈ rootsOf l, r ∈ l ∧ r.parent = "" := by
    intro r hr
    have := List.mem_filter.mp hr
    exact ⟨this.1, of_decide_eq_true this.2⟩
  have hrd : ∀ r ∈ rootsOf l, d r.id = 0 := by
    intro r hr
    obtain ⟨hrl, hrp⟩ := hmemroots r hr
    exact hw.rootDepth r hrl hrp
  rw [List.nodup_append]
  refine ⟨hroots, ?_, ?_⟩
  · rw [List.nodup_flatMap]
    constructor
    · intro r hr
      exact hw.descList_nodup l.length r.id (List.mem_map.mpr ⟨r, (hmemroots r hr).1, rfl⟩)
    · refine List.Pairwise.imp_of_mem ?_ hroots
      intro r₁ r₂ hr₁ hr₂ hne g hg₁ hg₂
      obtain ⟨j₁, hj₁, hj₁f, hq₁⟩ := mem_descList.mp hg₁
      obtain ⟨j₂, hj₂, hj₂f, hq₂⟩ := mem_descList.mp hg₂
      have hr₁l := (hmemroots r₁ hr₁).1
      have hr₂l := (hmemroots r₂ hr₂).1
      have hd₁ := hw.depth_of_reaches hq₁ (hw.idsNonempty r₁ hr₁l)
      have hd₂ := hw.depth_of_reaches hq₂ (hw.idsNonempty r₂ hr₂l)
      have he₁ := hrd r₁ hr₁
      have he₂ := hrd r₂ hr₂
      have hjj : j₁ = j₂ := by omega
      subst hjj
      have ha₁ := hw.anc_of_reaches j₁ r₁.id g (List.mem_map.mpr ⟨r₁, hr₁l, rfl⟩) hq₁
      have ha₂ := hw.anc_of_reaches j₁ r₂.id g (List.mem_map.mpr ⟨r₂, hr₂l, rfl⟩) hq₂
      have : r₁.id = r₂.id := Option.some.inj (ha₁.symm.trans ha₂)
      exact hne (hw.idInj hr₁l hr₂l this)
  · intro g hgroots hgflat
    obtain ⟨r, hr, hgr⟩ := List.mem_flatMap.mp hgflat
    obtain ⟨j, hj1, hjf, hq⟩ := mem_descList.mp hgr
    have hrl := (hmemroots r hr).1
    have := hw.depth_of_reaches hq (hw.idsNonempty r hrl)
    have hg0 : d g.id = 0 := by
      obtain ⟨hgl, hgp⟩ := hmemroots g hgroots
      exact hw.rootDepth g hgl hgp
    omega

theorem chain (hw : WellFormed l d) :
    ∀ (k : Nat), ∀ g ∈ l, d g.id = k →
      ∃ c : List String, c.Nodup ∧ c ⊆ gids l ∧ c.length = k + 1 ∧ ∀ x ∈ c, d x ≤ k := by
  intro k
  induction k with
  | zero =>
    intro g hg hd
    refine ⟨[g.id], List.nodup_singleton _, ?_, rfl, ?_⟩
    · intro x hx
      rw [List.mem_singleton.mp hx]
      exact List.mem_map.mpr ⟨g, hg, rfl⟩
    · intro x hx
      rw [List.mem_singleton.mp hx, hd]
  | succ k ih =>
    intro g hg hd
    by_cases hgp : g.parent = ""
    · have := hw.rootDepth g hg hgp
      omega
    · obtain ⟨u, hu, huid⟩ := List.mem_map.mp (hw.parentMem g hg hgp)
      have hud : d u.id = k := by
        have := hw.parentDepth g hg hgp
        rw [← huid] at this
        omega
      obtain ⟨c, hcn, hcs, hcl, hcb⟩ := ih u hu hud
      refine ⟨g.id :: c, ?_, ?_, by rw [List.length_cons, hcl], ?_⟩
      · rw [List.nodup_cons]
        refine ⟨fun hmem => ?_, hcn⟩
        have := hcb _ hmem
        omega
      · intro x hx
        rcases List.mem_cons.mp hx with rfl | hx'
        · exact List.mem_map.mpr ⟨g, hg, rfl⟩
        · exact hcs hx'
      · intro x hx
        rcases List.mem_cons.mp hx with rfl | hx'
        · omega
        · have := hcb x hx'
          omega

theorem depth_lt (hw : WellFormed l d) {g : GTask} (hg : g ∈ l) : d g.id < l.length := by
  obtain ⟨c, hcn, hcs, hcl, _⟩ := hw.chain (d g.id) g hg rfl
  have hle : c.length ≤ (gids l).length := (List.subperm_of_subset hcn hcs).length_le
  rw [hcl, gids, List.length_map] at *
  omega

theorem reaches_from_root (hw : WellFormed l d) :
    ∀ (k : Nat), ∀ g ∈ l, d g.id = k → g.parent ≠ "" →
      ∃ r, r ∈ rootsOf l ∧ Reaches l r.id (d g.id) g := by
  intro k
  induction k with
  | zero =>
    intro g hg hd hgp
    have := hw.parentDepth g hg hgp
    omega
  | succ k ih =>
    intro g hg hd hgp
    obtain ⟨u, hu, huid⟩ := List.mem_map.mp (hw.parentMem g hg hgp)
    have hud : d u.id = k := by
      have := hw.parentDepth g hg hgp
      rw [← huid] at this
      omega
    by_cases hup : u.parent = ""
    · refine ⟨u, List.mem_filter.mpr ⟨hu, by simp [hup]⟩, ?_⟩
      have hk0 : k = 0 := by
        have := hw.rootDepth u hu hup
        omega
      have h1 : d g.id = 1 := by omega
      rw [h1]
      exact Reaches.base u.id g hg huid.symm
    · obtain ⟨r, hr, hru⟩ := ih u hu hud hup
      rw [hud] at hru
      refine ⟨r, hr, ?_⟩
      have := (Reaches.snoc hg r.id k u hru huid.symm)
      rw [hd]
      exact this

theorem full_perm (hw : WellFormed l d) :
    (rootsOf l ++ (rootsOf l).flatMap fun r => descList l l.length r.id) ~ l := by
  rw [List.perm_ext_iff_of_nodup hw.full_nodup hw.nodup]
  intro g
  constructor
  · intro hg
    rcases List.mem_append.mp hg with hg' | hg'
    · exact (List.mem_filter.mp hg').1
    · obtain ⟨r, _, hgr⟩ := List.mem_flatMap.mp hg'
      obtain ⟨j, _, _, hq⟩ := mem_descList.mp hgr
      exact hq.mem
  · intro hg
    rw [List.mem_append]
    by_cases hgp : g.parent = ""
    · exact Or.inl (List.mem_filter.mpr ⟨hg, by simp [hgp]⟩)
    · obtain ⟨r, hr, hq⟩ := hw.reaches_from_root (d g.id) g hg rfl hgp
      refine Or.inr (List.mem_flatMap.mpr ⟨r, hr, mem_descList.mpr ⟨d g.id, hq.pos, ?_, hq⟩⟩)
      exact Nat.le_of_lt (hw.depth_lt hg)

end WellFormed

/-! ### Concrete sample data used by witnesses and counterexamples -/

/-- A sample active task. -/
def sampleTask : Task := .mk "1" "alpha" "" "needsAction" false 0 0 0 "" "p" []

/-- A sample completed task. -/
def sampleTask2 : Task := .mk "2" "beta" "" "completed" true 0 0 0 "" "q" []

/-- A task whose `DueDate` is the zero time. -/
def zeroDueTask : Task := .mk "42" "zero due" "" "needsAction" false 0 0 0 "" "r" []

/-- A wire task whose parent id resolves to no task of the input. -/
def orphanWire : GTask := ⟨"X", "x", "", "needsAction", "", none, "", "Y", "0"⟩

/-- A wire task carrying a completed date but status `needsAction`. -/
def staleWire : GTask := ⟨"9", "stale", "", "needsAction", "", some (formatRFC3339 1), "", "", "s"⟩

/-- A wire task carrying a completed date and status `completed`. -/
def cleanWire : GTask := ⟨"7", "clean", "", "completed", "", some (formatRFC3339 2), "", "", "t"⟩

/-- A file system whose canonical tasks file holds a previously saved
snapshot. -/
def exampleStorageFS : FileSys :=
  ⟨fun q => if q = tasksFilePath "sp" then some [1, 2, 3] else none⟩

/-- The tree-builder example of the spec: root `A` with children `B`
(position `"1"`) and `C` (position `"0"`). -/
def exA : GTask := ⟨"A", "a", "", "needsAction", "", none, "", "", "1"⟩

/-- Child of `A` with position `"1"`. -/
def exB : GTask := ⟨"B", "b", "", "needsAction", "", none, "", "A", "1"⟩

/-- Child of `A` with position `"0"`. -/
def exC : GTask := ⟨"C", "c", "", "needsAction", "", none, "", "A", "0"⟩

/-- The example input collection. -/
def exList : List GTask := [exA, exB, exC]

/-- A depth function witnessing that `exList` is acyclic. -/
def exDepth : String → Nat := fun s => if s = "A" then 0 else 1

/-! ### Claim C5 -/

/-- Claim C5: for a flat collection whose ids are assigned and pairwise
distinct, whose parent references are empty or resolve within the
collection, and whose parent graph is acyclic (witnessed by a depth
function), flattening the forest built by `buildTaskHierarchy` back into
`(id, parent)` pairs is a permutation of — i.e. reproduces exactly — the
id-to-parent mapping of the input. -/
theorem claim5_roundTrip (gs : List GTask) (d : String → Nat)
    (hnd : (gids gs).Nodup)
    (hne : ∀ g ∈ gs, g.id ≠ "")
    (hroot : ∀ g ∈ gs, g.parent = "" → d g.id = 0)
    (hmem : ∀ g ∈ gs, g.parent ≠ "" → g.parent ∈ gids gs)
    (hdep : ∀ g ∈ gs, g.parent ≠ "" → d g.id = d g.parent + 1) :
    pairsList (buildTaskHierarchy gs) "" ~ gs.map pairOf := by
  have hperm : gs.insertionSort posLe ~ gs := List.perm_insertionSort _ _
  have hw : WellFormed (gs.insertionSort posLe) d := by
    refine ⟨?_, ?_, ?_, ?_, ?_⟩
    · exact ((hperm.map GTask.id).nodup_iff).mpr hnd
    · exact fun g hg => hne g (hperm.subset hg)
    · exact fun g hg => hroot g (hperm.subset hg)
    · exact fun g hg hgp => ((hperm.map GTask.id).mem_iff).mpr (hmem g (hperm.subset hg) hgp)
    · exact fun g hg => hdep g (hperm.subset hg)
  have hbt : buildTaskHierarchy gs
      = (rootsOf (gs.insertionSort posLe)).map
          (fun g => (toTask g).withTasks
            (findChildren (gs.insertionSort posLe).length g.id (gs.insertionSort posLe))) :=
    filterMap_guard _ _ _
  calc pairsList (buildTaskHierarchy gs) ""
      = (rootsOf (gs.insertionSort posLe)).flatMap
          (fun r => ((toTask r).withTasks
            (findChildren (gs.insertionSort posLe).length r.id
              (gs.insertionSort posLe))).pairsUnder "") := by
        rw [hbt, pairsList_eq_flatMap, List.flatMap_map]
    _ = (rootsOf (gs.insertionSort posLe)).flatMap
          (fun r => (r.id, "") :: pairsList
            (findChildren (gs.insertionSort posLe).length r.id (gs.insertionSort posLe))
            r.id) := by
        refine List.flatMap_congr fun r _ => ?_
        rw [pairsUnder_withTasks, id_toTask]
    _ ~ (rootsOf (gs.insertionSort posLe)).map (fun r => (r.id, ""))
          ++ (rootsOf (gs.insertionSort posLe)).flatMap
               (fun r => pairsList
                 (findChildren (gs.insertionSort posLe).length r.id (gs.insertionSort posLe))
                 r.id) :=
        (List.map_append_flatMap_perm _ _ _).symm
    _ ~ (rootsOf (gs.insertionSort posLe)).map pairOf
          ++ (rootsOf (gs.insertionSort posLe)).flatMap
               (fun r => (descList (gs.insertionSort posLe)
                 (gs.insertionSort posLe).length r.id).map pairOf) := by
        refine List.Perm.append ?_
          (List.Perm.flatMap_left _ fun r _ => pairs_findChildren _ _ _)
        refine List.Perm.of_eq (List.map_congr_left fun r hr => ?_)
        have hrp : r.parent = "" := of_decide_eq_true (List.mem_filter.mp hr).2
        rw [pairOf, hrp]
    _ = (rootsOf (gs.insertionSort posLe)
          ++ (rootsOf (gs.insertionSort posLe)).flatMap
               fun r => descList (gs.insertionSort posLe)
                 (gs.insertionSort posLe).length r.id).map pairOf := by
        rw [List.map_append, List.map_flatMap]
    _ ~ (gs.insertionSort posLe).map pairOf := (hw.full_perm).map pairOf
    _ ~ gs.map pairOf := hperm.map pairOf

/-- Claim C5, witness: the three-task example collection. -/
theorem claim5_roundTrip_witness :
    pairsList (buildTaskHierarchy exList) "" ~ exList.map pairOf :=
  claim5_roundTrip exList exDepth (by decide) (by decide) (by decide) (by decide) (by decide)

/-! ### Claim C4 -/

theorem findChildren_sorted (l : List GTask) :
    ∀ (fuel : Nat) (p : String), (findChildren fuel p l).Pairwise posLeT
  | 0, _ => List.Pairwise.nil
  | _ + 1, _ => List.sorted_insertionSort posLeT _

theorem findChildren_nodes_sorted (l : List GTask) :
    ∀ (fuel : Nat) (p : String), ∀ x ∈ nodesList (findChildren fuel p l),
      x.tasks.Pairwise posLeT := by
  intro fuel
  induction fuel with
  | zero => intro p x hx; rw [findChildren, nodesList] at hx; cases hx
  | succ fuel ih =>
    intro p x hx
    rw [findChildren, filterMap_guard, nodesList_eq_flatMap] at hx
    obtain ⟨tree, htree, hxtree⟩ := List.mem_flatMap.mp hx
    rw [List.mem_insertionSort, List.mem_map] at htree
    obtain ⟨c, _, rfl⟩ := htree
    rw [nodes_withTasks] at hxtree
    rcases List.mem_cons.mp hxtree with rfl | hx'
    · rw [tasks_withTasks]
      exact findChildren_sorted l fuel c.id
    · exact ih c.id x hx'

/-- Claim C4: in the forest built by `buildTaskHierarchy`, every sibling
group — the root group and the children of every node — is ordered
non-decreasingly under lexicographic comparison of `Position`; and the
spec's concrete example `[A(pos 1), B(parent A, pos 1), C(parent A, pos 0)]`
builds root `A` with children in the order `[C, B]`. -/
theorem claim4_sibling_order (gs : List GTask) :
    (buildTaskHierarchy gs).Pairwise posLeT
      ∧ (∀ x ∈ nodesList (buildTaskHierarchy gs), x.tasks.Pairwise posLeT)
      ∧ buildTaskHierarchy exList
          = [.mk "A" "a" "" "needsAction" false 0 0 0 "" "1"
              [.mk "C" "c" "" "needsAction" false 0 0 0 "A" "0" [],
               .mk "B" "b" "" "needsAction" false 0 0 0 "A" "1" []]] := by
  have hbt : buildTaskHierarchy gs
      = (rootsOf (gs.insertionSort posLe)).map
          (fun g => (toTask g).withTasks
            (findChildren (gs.insertionSort posLe).length g.id (gs.insertionSort posLe))) :=
    filterMap_guard _ _ _
  refine ⟨?_, ?_, by rfl⟩
  · rw [hbt, List.pairwise_map]
    have hsorted : (gs.insertionSort posLe).Pairwise posLe :=
      List.sorted_insertionSort posLe gs
    have hfiltered : (rootsOf (gs.insertionSort posLe)).Pairwise posLe :=
      hsorted.filter _
    refine hfiltered.imp_of_mem ?_
    intro a b _ _ hab
    show posLtB ((toTask b).withTasks _).position ((toTask a).withTasks _).position = false
    rw [position_withTasks, position_toTask, position_withTasks, position_toTask]
    exact hab
  · intro x hx
    rw [hbt, nodesList_eq_flatMap] at hx
    obtain ⟨tree, htree, hxtree⟩ := List.mem_flatMap.mp hx
    obtain ⟨r, _, rfl⟩ := List.mem_map.mp htree
    rw [nodes_withTasks] at hxtree
    rcases List.mem_cons.mp hxtree with rfl | hx'
    · rw [tasks_withTasks]
      exact findChildren_sorted _ _ _
    · exact findChildren_nodes_sorted _ _ _ x hx'

/-- Claim C4, witness. -/
theorem claim4_sibling_order_witness : (buildTaskHierarchy exList).Pairwise posLeT :=
  (claim4_sibling_order exList).1

/-! ### Claim C1 -/

theorem findChildren_node_ids (l : List GTask) :
    ∀ (fuel : Nat) (p : String), p ∈ gids l →
      ∀ x ∈ nodesList (findChildren fuel p l),
        ∃ g ∈ l, x.id = g.id ∧ g.parent ∈ gids l := by
  intro fuel
  induction fuel with
  | zero => intro p _ x hx; rw [findChildren, nodesList] at hx; cases hx
  | succ fuel ih =>
    intro p hp x hx
    rw [findChildren, filterMap_guard, nodesList_eq_flatMap] at hx
    obtain ⟨tree, htree, hxtree⟩ := List.mem_flatMap.mp hx
    rw [List.mem_insertionSort, List.mem_map] at htree
    obtain ⟨c, hc, rfl⟩ := htree
    have hcl : c ∈ l := (List.mem_filter.mp hc).1
    have hcp : c.parent = p := of_decide_eq_true (List.mem_filter.mp hc).2
    rw [nodes_withTasks] at hxtree
    rcases List.mem_cons.mp hxtree with rfl | hx'
    · exact ⟨c, hcl, by rw [id_withTasks, id_toTask], by rw [hcp]; exact hp⟩
    · exact ih c.id (List.mem_map.mpr ⟨c, hcl, rfl⟩) x hx'

/-- Claim C1, amended: a task whose parent id is non-empty and does not
match the id of any task of the input does not appear anywhere in the output
forest of `buildTaskHierarchy` (in particular not at the root level): the
orphan is silently dropped. -/
theorem claim1_amended (gs : List GTask) (t : GTask)
    (hnd : (gids gs).Nodup) (ht : t ∈ gs) (htp : t.parent ≠ "") (hto : t.parent ∉ gids gs) :
    ∀ x ∈ nodesList (buildTaskHierarchy gs), x.id ≠ t.id := by
  have hperm : gs.insertionSort posLe ~ gs := List.perm_insertionSort _ _
  have hndL : (gids (gs.insertionSort posLe)).Nodup := ((hperm.map GTask.id).nodup_iff).mpr hnd
  have hgidsL : ∀ s, s ∈ gids (gs.insertionSort posLe) ↔ s ∈ gids gs :=
    fun s => (hperm.map GTask.id).mem_iff
  have hbt : buildTaskHierarchy gs
      = (rootsOf (gs.insertionSort posLe)).map
          (fun g => (toTask g).withTasks
            (findChildren (gs.insertionSort posLe).length g.id (gs.insertionSort posLe))) :=
    filterMap_guard _ _ _
  intro x hx hxt
  rw [hbt, nodesList_eq_flatMap] at hx
  obtain ⟨tree, htree, hxtree⟩ := List.mem_flatMap.mp hx
  obtain ⟨r, hr, rfl⟩ := List.mem_map.mp htree
  have hrl : r ∈ gs.insertionSort posLe := (List.mem_filter.mp hr).1
  have hrp : r.parent = "" := of_decide_eq_true (List.mem_filter.mp hr).2
  rw [nodes_withTasks] at hxtree
  rcases List.mem_cons.mp hxtree with rfl | hx'
  · rw [id_withTasks, id_toTask] at hxt
    have : r = t := List.inj_on_of_nodup_map hnd (hperm.subset hrl) ht hxt
    rw [this] at hrp
    exact htp hrp
  · obtain ⟨g, hgl, hgid, hgpar⟩ := findChildren_node_ids (gs.insertionSort posLe)
      (gs.insertionSort posLe).length r.id (List.mem_map.mpr ⟨r, hrl, rfl⟩) x hx'
    rw [hxt] at hgid
    have : g = t := List.inj_on_of_nodup_map hnd (hperm.subset hgl) ht hgid.symm
    rw [this] at hgpar
    exact hto ((hgidsL t.parent).mp hgpar)

/-- The example collection extended with an orphaned task. -/
def exOrphanList : List GTask := [exA, exB, exC, orphanWire]

/-- Claim C1, witness for the amended theorem: on the example collection with
an orphan added, the root node built for `A` is a node of the output forest
and its id differs from the orphan's. -/
theorem claim1_amended_witness :
    (Task.mk "A" "a" "" "needsAction" false 0 0 0 "" "1"
        [.mk "C" "c" "" "needsAction" false 0 0 0 "A" "0" [],
         .mk "B" "b" "" "needsAction" false 0 0 0 "A" "1" []]).id ≠ orphanWire.id :=
  claim1_amended exOrphanList orphanWire (by decide) (by decide) (by decide) (by decide)
    (Task.mk "A" "a" "" "needsAction" false 0 0 0 "" "1"
        [.mk "C" "c" "" "needsAction" false 0 0 0 "A" "0" [],
         .mk "B" "b" "" "needsAction" false 0 0 0 "A" "1" []]) (by decide)

/-- Claim C1, counterexample: the claim says an orphaned task (non-empty
`parent` matching no input id) still appears at the root level of the output
forest.  On the input `[orphanWire]` — whose single task has parent `"Y"`,
which is non-empty and matches no input id — `buildTaskHierarchy` returns the
empty forest: the orphan is dropped. -/
theorem claim1_counterexample :
    orphanWire.parent ≠ "" ∧ orphanWire.id ≠ orphanWire.parent ∧
      buildTaskHierarchy [orphanWire] = [] := by
  refine ⟨by decide, by decide, rfl⟩

/-! ### Claim C2 -/

/-- Claim C2, amended part: `saveCachedTasks` (the cache-file save in
main.go) really is atomic — it writes the marshaled snapshot to a temporary
file in the same directory and renames it over the cache file, so every
crashed (incomplete) run leaves the previous cache file untouched. -/
theorem claim2_saveCachedTasks_atomic (fs : FileSys) (data : List Nat) (fs' : FileSys)
    (h : Crashed fs (saveCachedTasksOps data) fs') :
    fs'.files cacheFilePath = fs.files cacheFilePath := by
  have hne : cacheFilePath ≠ tempCacheFilePath := by decide
  cases h with
  | before => rfl
  | torn _ _ _ k => simp [applyOp, hne]
  | step _ _ _ _ h1 =>
    cases h1 with
    | before => simp [applyOp, hne]
    | step _ _ _ _ h2 => cases h2

/-- Claim C2, witness for the amended part: a run crashed before any
operation leaves the cache file exactly as it was. -/
theorem claim2_saveCachedTasks_atomic_witness :
    (exampleStorageFS.files cacheFilePath = exampleStorageFS.files cacheFilePath) :=
  claim2_saveCachedTasks_atomic exampleStorageFS [7] exampleStorageFS
    (Crashed.before exampleStorageFS _ _)

/-- Claim C2, counterexample: `SaveTasks` (internal/storage.go), the
persistence save the claim is about, performs a single direct `os.WriteFile`
of the canonical file with no temporary file and no rename; a run interrupted
mid-write truncates the previously written canonical file.  Concretely: from
a file system holding a prior snapshot `[1, 2, 3]` in `sp/tasks.json`, a
crashed `SaveTasks` run leaves the canonical file changed (truncated to
`[]`), so the prior canonical file is not intact. -/
theorem claim2_counterexample :
    Crashed exampleStorageFS (saveTasksOps "sp" [7, 7, 7])
        (applyOp exampleStorageFS (.write (tasksFilePath "sp") (List.take 0 [7, 7, 7])))
      ∧ (applyOp exampleStorageFS (.write (tasksFilePath "sp") (List.take 0 [7, 7, 7]))).files
          (tasksFilePath "sp")
        ≠ exampleStorageFS.files (tasksFilePath "sp") :=
  ⟨Crashed.torn exampleStorageFS (tasksFilePath "sp") [7, 7, 7] 0 [], by decide⟩

/-! ### Claim C3 -/

/-- Claim C3, counterexample: the claim says both `CreateTask` and
`UpdateTask` omit `dueDate` from the wire whenever the task's `DueDate` is
zero.  `UpdateTask` always sets `Due = task.DueDate.Format(time.RFC3339)`:
on a task with zero `DueDate` it sends the formatted zero timestamp, not an
absent field. -/
theorem claim3_counterexample :
    zeroDueTask.dueDate = 0 ∧ (updateTaskWire zeroDueTask).due = formatRFC3339 0 ∧
      formatRFC3339 0 ≠ "" :=
  ⟨rfl, rfl, by decide⟩

/-- Claim C3, amended: for a task whose `DueDate` is the zero time,
`CreateTask` omits `dueDate` from the wire (the `Due` field keeps its Go zero
value `""`), but `UpdateTask` always sends `Due`, here the formatted zero
timestamp, which is a non-empty string. -/
theorem claim3_amended (t : Task) (h : t.dueDate = 0) :
    (createTaskWire t).due = "" ∧ (updateTaskWire t).due = formatRFC3339 0 ∧
      formatRFC3339 0 ≠ "" := by
  refine ⟨?_, ?_, by decide⟩
  · simp [createTaskWire, h]
  · simp [updateTaskWire, h]

/-- Claim C3, witness. -/
theorem claim3_amended_witness :
    (createTaskWire zeroDueTask).due = "" ∧ (updateTaskWire zeroDueTask).due = formatRFC3339 0 ∧
      formatRFC3339 0 ≠ "" :=
  claim3_amended zeroDueTask rfl

/-! ### Claims C6 and C7 -/

/-- Claim C6: a reconciliation cycle whose fetched snapshot is structurally
equal to the cached snapshot leaves the cache (both the task forest and
`LastSync`) unchanged, does not invoke `saveCachedTasks`, and sends no UI
notification. -/
theorem claim6_unchanged_cycle (cache : GoogleTasksCache) (fetched : List Task) (now : GoTime)
    (h : fetched = cache.tasks) :
    syncCycle cache fetched now = (cache, { wroteCache := false, notifications := 0 }) := by
  subst h
  rw [syncCycle, if_pos ((tasksEqual_iff _ _).mpr rfl)]

/-- Claim C6, witness. -/
theorem claim6_unchanged_cycle_witness :
    syncCycle ⟨[sampleTask], 5⟩ [sampleTask] 9
      = (⟨[sampleTask], 5⟩, { wroteCache := false, notifications := 0 }) :=
  claim6_unchanged_cycle ⟨[sampleTask], 5⟩ [sampleTask] 9 rfl

/-- Claim C7: a reconciliation cycle whose fetched snapshot differs
structurally from the cached snapshot replaces the entire cached forest with
the fetched one, sets `LastSync` to the current time, invokes
`saveCachedTasks` once, and sends exactly one UI notification. -/
theorem claim7_changed_cycle (cache : GoogleTasksCache) (fetched : List Task) (now : GoTime)
    (h : fetched ≠ cache.tasks) :
    syncCycle cache fetched now
      = ({ tasks := fetched, lastSync := now }, { wroteCache := true, notifications := 1 }) := by
  rw [syncCycle, if_neg]
  intro hEq
  exact h ((tasksEqual_iff _ _).mp hEq).symm

/-- Claim C7, witness: a cycle in which one task's title changed. -/
theorem claim7_changed_cycle_witness :
    syncCycle ⟨[sampleTask], 5⟩ [renameActive "new title" 6 sampleTask] 9
      = (⟨[renameActive "new title" 6 sampleTask], 9⟩,
          { wroteCache := true, notifications := 1 }) :=
  claim7_changed_cycle ⟨[sampleTask], 5⟩ [renameActive "new title" 6 sampleTask] 9 (by decide)

/-! ### Claim C8 -/

/-- Claim C8: when the persisted tasks file is absent, both `LoadTasks`
(internal/storage.go) and `ImportFromLocal` (main.go) return the empty
snapshot and no error, whatever the unmarshaler does on present files. -/
theorem claim8_load_missing_file (decode : List Nat → Option (List Task)) :
    LoadTasks decode none = .ok [] ∧ ImportFromLocal decode none = .ok [] :=
  ⟨rfl, rfl⟩

/-! ### Claim C9 -/

/-- Claim C9, counterexample: the claim says every task produced by fetching
and mapping a remote task satisfies `Completed = true ↔ Status =
"completed"`.  `fetchGoogleTasks` forces `Completed = true` whenever a
parseable completed date is present, even with status `needsAction`, so the
mapped task `toTask staleWire` violates the invariant. -/
theorem claim9_counterexample :
    (toTask staleWire).completed = true ∧ (toTask staleWire).status ≠ "completed" ∧
      ¬ completedStatusInv (toTask staleWire) := by
  refine ⟨rfl, by decide, ?_⟩
  intro h
  exact absurd (h.mp rfl) (by decide)

/-- Claim C9, amended: the completion toggles establish the invariant
`Completed = true ↔ Status = "completed"` outright; renaming preserves it for
the tasks it is applied to (any invariant-satisfying task in the active list,
and any invariant-satisfying task of the completed list, whose `Completed` is
`true`); and the fetch mapping establishes it provided the wire task carries
a completed date only when its status is `"completed"`. -/
theorem claim9_amended (a b : Task) (g : GTask) (v : String) (now : GoTime)
    (hinvA : completedStatusInv a) (hinvB : completedStatusInv b) (hb : b.completed = true)
    (hg : g.completed.isSome = true → g.status = "completed") :
    completedStatusInv (markCompleted a) ∧ completedStatusInv (markNeedsAction a) ∧
      completedStatusInv (renameActive v now a) ∧ completedStatusInv (renameCompleted v now b) ∧
      completedStatusInv (toTask g) := by
  obtain ⟨i, ti, n, s, c, d, cd, u, p, po, ts⟩ := a
  obtain ⟨i2, ti2, n2, s2, c2, d2, cd2, u2, p2, po2, ts2⟩ := b
  simp only [completedStatusInv, markCompleted, markNeedsAction, renameActive, renameCompleted,
    Task.completed, Task.status, toTask] at *
  refine ⟨by simp, by simp, ?_, ?_, ?_⟩
  · by_cases hs : s = "" <;> simp [hs] at hinvA ⊢ <;> simp_all
  · by_cases hs : s2 = "" <;> simp [hs] at hinvB ⊢ <;> simp_all
  · cases hc : g.completed with
    | none => simp [Option.bind, hc]
    | some str =>
      have hst : g.status = "completed" := hg (by simp [hc])
      simp [Option.bind, hc, hst]

/-- Claim C9, witness. -/
theorem claim9_amended_witness :
    completedStatusInv (markCompleted sampleTask) ∧
      completedStatusInv (markNeedsAction sampleTask) ∧
      completedStatusInv (renameActive "x" 3 sampleTask) ∧
      completedStatusInv (renameCompleted "x" 3 sampleTask2) ∧
      completedStatusInv (toTask cleanWire) :=
  claim9_amended sampleTask sampleTask2 cleanWire "x" 3 (by decide) (by decide) rfl
    (fun _ => rfl)

/-! ### Claim C10 -/

theorem removeTask_no_match (ts : List Task) (target : Task)
    (h : ∀ u ∈ ts, u.id ≠ target.id) : removeTask ts target = ts := by
  induction ts with
  | nil => rfl
  | cons t ts ih =>
    rw [removeTask, if_neg, ih fun u hu => h u (List.mem_cons_of_mem _ hu)]
    simp only [beq_iff_eq]
    exact h t (List.mem_cons_self _ _)

theorem removeTask_first (pre suf : List Task) (x target : Task)
    (hpre : ∀ u ∈ pre, u.id ≠ target.id) (hx : x.id = target.id) :
    removeTask (pre ++ x :: suf) target = pre ++ suf := by
  induction pre with
  | nil =>
    have hc : (x.id == target.id) = true := by simp [hx]
    rw [List.nil_append, removeTask, if_pos hc, List.nil_append]
  | cons t ts ih =>
    have hc : ¬ ((t.id == target.id) = true) := by
      simp only [beq_iff_eq]
      exact hpre t (List.mem_cons_self _ _)
    rw [List.cons_append, removeTask, if_neg hc,
      ih fun u hu => hpre u (List.mem_cons_of_mem _ hu), List.cons_append]

/-- Claim C10: `removeTask` removes exactly the first element whose `Id`
matches the given task's `Id`, preserving the relative order of the others,
and returns the list unchanged when no element matches. -/
theorem claim10_removeTask (pre suf : List Task) (x target : Task)
    (hpre : ∀ u ∈ pre, u.id ≠ target.id) (hx : x.id = target.id) :
    removeTask (pre ++ x :: suf) target = pre ++ suf ∧ removeTask pre target = pre :=
  ⟨removeTask_first pre suf x target hpre hx, removeTask_no_match pre target hpre⟩

/-- Claim C10, witness. -/
theorem claim10_removeTask_witness :
    removeTask ([sampleTask] ++ sampleTask2 :: []) sampleTask2 = [sampleTask] ∧
      removeTask [sampleTask] sampleTask2 = [sampleTask] :=
  claim10_removeTask [sampleTask] [] sampleTask2 sampleTask2 (by decide) rfl

end Godo
